import Mathlib

/-!
Verification of the sailce data-model core against its specification.

This file gives a shallow embedding, in Lean 4, of the Rust code of the
`sailce_data_model` crate (the `Range`/`Area`/`AreaOfInterest` grouping types,
`Entry` newness, `Path` limits, and the `Store` wrapper together with the
`InMem` reference backend from the crate's test suite), and proves properties
of that embedding.

Conventions of the embedding:
- The crate is generic over a `Params` trait (`NamespaceId`, `SubspaceId`,
  `PayloadDigest` are opaque equatable/ordered types).  We instantiate all
  three as `Nat`, which satisfies every bound the code requires (`Clone`,
  `Eq`, `Ord`) and is infinite, as the deployments' identifier types are.
- Machine integers (`u64` for timestamps, digests and payload lengths,
  `usize` for path sizes) are modelled as `Nat`; wherever the code performs a
  checked/overflow-aware operation, the `2^64 - 1` bound appears explicitly.
- `async` suspension points have no observable effect on the values computed
  and are dropped.
- Payload bytes, payload digest verification and authorisation tokens are
  external collaborators; they do not affect which `Entry` records are
  observable through `get`/`iter`, which is what the theorems below are
  about.  Puts are modelled as payload-less (`payload = None` in the code),
  which succeed or fail exactly on the namespace and path-limit checks.
-/

namespace Sailce

/-- Mirrors `End<T>` of `packages/data_model/src/group/range.rs` (lines 24-32):
a `Range` is closed (with an end value) or open. -/
inductive REnd (α : Type) : Type where
  | Closed : α → REnd α
  | Open : REnd α
deriving DecidableEq, Repr

/-- Mirrors `Range<T>` of `group/range.rs` (lines 37-47).  The Rust field
`end` is a Lean keyword, so it is named `stop` here. -/
structure Range (α : Type) where
  start : α
  stop : REnd α
deriving DecidableEq, Repr

/-- Mirrors `Range::empty` (`group/range.rs` lines 90-97): start and closed
end are both `T::default()`; for `Timestamp` the default is `0`, which Lean's
`default` for `Nat` also is. -/
def Range.emptyR (α : Type) [Inhabited α] : Range α :=
  { start := default, stop := REnd.Closed default }

/-- Mirrors `Range::includes` (`group/range.rs` lines 99-114): a range
includes the values at or above `start` and strictly below a closed end. -/
def Range.includes {α : Type} [LinearOrder α] (r : Range α) (v : α) : Bool :=
  decide (r.start ≤ v) &&
    (match r.stop with
     | REnd.Closed e => decide (v < e)
     | REnd.Open => true)

/-- Mirrors `Range::is_empty` (`group/range.rs` lines 130-139). -/
def Range.is_empty {α : Type} [LinearOrder α] (r : Range α) : Bool :=
  match r.stop with
  | REnd.Closed e => decide (e ≤ r.start)
  | REnd.Open => false

/-- Mirrors `Range::includes_range` (`group/range.rs` lines 116-128): an empty
`other` is always included; otherwise compare the starts and the ends. -/
def Range.includes_range {α : Type} [LinearOrder α] (r other : Range α) : Bool :=
  other.is_empty ||
    (decide (r.start ≤ other.start) &&
      (match r.stop, other.stop with
       | REnd.Closed self_end, REnd.Closed other_end => decide (other_end ≤ self_end)
       | REnd.Closed _, REnd.Open => false
       | REnd.Open, _ => true))

/-- Mirrors `Range::intersection` (`group/range.rs` lines 146-165): the start
is the max of the starts; the end is the min of two closed ends, the one
closed end, or open. -/
def Range.intersection {α : Type} [LinearOrder α] (r other : Range α) : Range α :=
  { start := max r.start other.start
    stop :=
      match r.stop, other.stop with
      | REnd.Closed self_end, REnd.Closed other_end => REnd.Closed (min self_end other_end)
      | REnd.Closed self_end, REnd.Open => REnd.Closed self_end
      | REnd.Open, REnd.Closed other_end => REnd.Closed other_end
      | REnd.Open, REnd.Open => REnd.Open }

/-- A path component: the byte-string `Component` of `path.rs` (lines
105-110), bytes as naturals. -/
abbrev PathC : Type := List Nat

/-- A path: a sequence of components, as the `Path` trait's `components`
view (`path.rs` lines 30-38). -/
abbrev PathT : Type := List PathC

/-- Mirrors `Path::is_prefix_of` (`path.rs` lines 70-88): the components of
`s` are exactly the first `s.length` components of `t`. -/
def pathIsPrefixOf (s t : PathT) : Bool :=
  decide (s.length ≤ t.length) && s == t.take s.length

/-- Mirrors `PathLimitError` of `path/errors.rs` (lines 12-27): the index of
the component where conversion failed, and which of the three limits were
respected (`false` marks an exceeded limit). -/
structure PathLimitError where
  index : Nat
  within_max_component_length : Bool
  within_max_component_count : Bool
  within_max_path_length : Bool
deriving DecidableEq, Repr

/-- Mirrors `usize::MAX` (64-bit platform) for the checked addition in
`from_path_limited`. -/
def USIZE_MAX : Nat := 2 ^ 64 - 1

/-- Mirrors `usize::checked_add`: `none` when the sum exceeds `usize::MAX`. -/
def checkedAddUsize (a b : Nat) : Option Nat :=
  if a + b ≤ USIZE_MAX then some (a + b) else none

/-- The limit constants of a `Params` (`lib.rs` lines 82-87):
`MAX_COMPONENT_LENGTH`, `MAX_COMPONENT_COUNT`, `MAX_PATH_LENGTH`, each a
`NonZeroUsize`. -/
structure PathLimits where
  maxComponentLength : Nat
  maxComponentCount : Nat
  maxPathLength : Nat
deriving DecidableEq, Repr

/-- The recursion of `Extra::from_path_limited` (`path/extra.rs` lines
54-94): walk the components with their 0-based `index`, keeping the running
total size `totalSz` (checked addition), and stop at the first component
where one of the three `within_*` conditions fails, reporting all three
condition flags at that index.  `collect::<Result<..>>` short-circuits at the
first error, which the explicit recursion mirrors. -/
def fromPathLimitedGo (lim : PathLimits) (index totalSz : Nat) :
    PathT → Except PathLimitError PathT
  | [] => Except.ok []
  | c :: rest =>
    let cSz := c.length
    let checked := checkedAddUsize totalSz cSz
    let totalSz' := match checked with
      | some t => t
      | none => totalSz
    let totalOverflowed : Bool := match checked with
      | some _ => false
      | none => true
    let wMCL : Bool := decide (cSz ≤ lim.maxComponentLength)
    let wMCC : Bool := decide (index ≤ lim.maxComponentCount)
    let wMPL : Bool := decide (totalSz' ≤ lim.maxPathLength) && !totalOverflowed
    if wMCL && wMCC && wMPL then
      match fromPathLimitedGo lim (index + 1) totalSz' rest with
      | Except.ok cs => Except.ok (c :: cs)
      | Except.error e => Except.error e
    else
      Except.error
        { index := index
          within_max_component_length := wMCL
          within_max_component_count := wMCC
          within_max_path_length := wMPL }

/-- Mirrors `Extra::from_path_limited` (`path/extra.rs` lines 54-94), with
the three limits passed explicitly (they are associated constants of the
`Params` type parameter in the code). -/
def fromPathLimited (lim : PathLimits) (p : PathT) : Except PathLimitError PathT :=
  fromPathLimitedGo lim 0 0 p

/-- Mirrors `Entry` of `entry.rs` (lines 20-37), at the `Nat` instantiation
of `NamespaceId`, `SubspaceId` and `PayloadDigest`; `Timestamp` and
`payload_length` are `u64` in the code, modelled as `Nat`. -/
structure Entry where
  namespace_id : Nat
  subspace_id : Nat
  path : PathT
  timestamp : Nat
  payload_digest : Nat
  payload_length : Nat
deriving DecidableEq, Repr

/-- Mirrors `Entry::is_newer_than` (`entry.rs` lines 41-74): `e1` is newer
than `e2` iff the tuple `(timestamp, payload_digest, payload_length)` of `e1`
is lexicographically greater than that of `e2` (`cmp_newer_than` compares the
three fields in that order). -/
def Entry.is_newer_than (e1 e2 : Entry) : Bool :=
  decide (e2.timestamp < e1.timestamp) ||
    (decide (e2.timestamp = e1.timestamp) &&
      (decide (e2.payload_digest < e1.payload_digest) ||
        (decide (e2.payload_digest = e1.payload_digest) &&
          decide (e2.payload_length < e1.payload_length))))

/-- Mirrors `Subspace<SubspaceId>` of `crates/data_model/src/group/area.rs`
(lines 39-47): a single Subspace or all Subspaces. -/
inductive Subspace (σ : Type) : Type where
  | Id : σ → Subspace σ
  | Any : Subspace σ
deriving DecidableEq, Repr

/-- Mirrors `Subspace::includes` (`area.rs` lines 49-63): `Any` accepts
everything; a concrete id accepts only the same concrete id. -/
def Subspace.includesSel {σ : Type} [DecidableEq σ] (s other : Subspace σ) : Bool :=
  match s, other with
  | Subspace.Any, _ => true
  | Subspace.Id self_id, Subspace.Id other_id => self_id == other_id
  | Subspace.Id _, Subspace.Any => false

/-- Mirrors `Area<SubspaceId, Path>` of `area.rs` (lines 21-35), with
`SubspaceId = Nat` (as for `Entry`) and the concrete `PathT` path
representation; `times` is a `Range<Timestamp>`. -/
structure Area where
  subspace : Subspace Nat
  path : PathT
  times : Range Nat
deriving DecidableEq, Repr

/-- Mirrors `Area::empty` (`area.rs` lines 71-82): `Any` subspace, default
(empty) path, empty time range. -/
def Area.emptyA : Area :=
  { subspace := Subspace.Any, path := [], times := Range.emptyR Nat }

/-- Mirrors `Area::full` (`area.rs` lines 84-93): `Any` subspace, empty path,
and the default time range `0 ..`. -/
def Area.fullA : Area :=
  { subspace := Subspace.Any, path := [], times := { start := 0, stop := REnd.Open } }

/-- Mirrors `impl Includable for Entry` (`area.rs` lines 220-238), i.e.
`Area::includes` applied to an `Entry`: the subspace selector accepts the
entry's subspace, the area's path prefixes the entry's path, and the time
range includes the entry's timestamp. -/
def Area.includesEntry (a : Area) (e : Entry) : Bool :=
  a.subspace.includesSel (Subspace.Id e.subspace_id) &&
    pathIsPrefixOf a.path e.path &&
    a.times.includes e.timestamp

/-- Mirrors `impl Includable for Area` (`area.rs` lines 240-256), i.e.
`Area::includes` applied to another `Area` (`a.includesArea b` is
`a.includes(b)`, whose body is `b.included_in(a)`). -/
def Area.includesArea (a b : Area) : Bool :=
  a.subspace.includesSel b.subspace &&
    pathIsPrefixOf a.path b.path &&
    a.times.includes_range b.times

/-- Mirrors `Area::is_empty` (`area.rs` lines 125-132). -/
def Area.is_emptyA (a : Area) : Bool :=
  a.times.is_empty

/-- Mirrors `Area::intersection` (`area.rs` lines 134-194): the canonical
empty `Area` when the concrete subspace ids disagree, when neither path
prefixes the other, or when the intersection of the time ranges is empty;
otherwise the concrete subspace side (`Any` if both are `Any`), the
prefixed (longer) path, and the time-range intersection. -/
def Area.intersection (a other : Area) : Area :=
  match
    (match a.subspace, other.subspace with
     | Subspace.Any, Subspace.Any => some Subspace.Any
     | Subspace.Any, Subspace.Id other_id => some (Subspace.Id other_id)
     | Subspace.Id self_id, Subspace.Any => some (Subspace.Id self_id)
     | Subspace.Id self_id, Subspace.Id other_id =>
       if self_id == other_id then some (Subspace.Id self_id) else none)
  with
  | none => Area.emptyA
  | some subspace =>
    match
      (if pathIsPrefixOf a.path other.path then some other.path
       else if pathIsPrefixOf other.path a.path then some a.path
       else none)
    with
    | none => Area.emptyA
    | some path =>
      let times := a.times.intersection other.times
      if times.is_empty then Area.emptyA
      else { subspace := subspace, path := path, times := times }

/-- Specification function for `Area::intersection`, stated from the spec's
words (spec section 4.3): the result "fails (returns the canonical empty
`Area`) if subspaces disagree on a concrete id, or if neither path is a
prefix of the other; otherwise the subspace is whichever side is concrete
(or `Any` if both are), the path is the longer of the two, and the times are
the `Range` intersection; if the resulting time range is empty, canonicalize
to the empty `Area`".  Compared with `Area.intersection` (from the code) by
theorem below. -/
def Area.intersectionSpec (a other : Area) : Area :=
  if (match a.subspace, other.subspace with
      | Subspace.Id self_id, Subspace.Id other_id => self_id != other_id
      | _, _ => false : Bool) then Area.emptyA
  else if !(pathIsPrefixOf a.path other.path || pathIsPrefixOf other.path a.path) then
    Area.emptyA
  else if (a.times.intersection other.times).is_empty then Area.emptyA
  else
    { subspace :=
        match a.subspace, other.subspace with
        | Subspace.Id self_id, _ => Subspace.Id self_id
        | Subspace.Any, Subspace.Id other_id => Subspace.Id other_id
        | Subspace.Any, Subspace.Any => Subspace.Any
      path := if other.path.length ≤ a.path.length then a.path else other.path
      times := a.times.intersection other.times }

/-- Mirrors `StoredEntry` of `tests/basic/store/stored_entry.rs` (lines
31-38): the minimal data stored per entry.  The `payload` and `auth_token`
fields are omitted: `StoredEntry`'s `Ord`/`Eq`/`Hash` ignore them (lines
40-89), and they do not affect which `Entry` records `get`/`iter` surface. -/
structure StoredEntry where
  timestamp : Nat
  payload_digest : Nat
  payload_length : Nat
deriving DecidableEq, Repr

/-- Mirrors `StoredEntry`'s `Ord::cmp` (`stored_entry.rs` lines 40-54): it
compares `to_dummy_entry()` values whose namespace/subspace/path fields are
equal dummies, so it is exactly `Entry::cmp_newer_than` on the
`(timestamp, payload_digest, payload_length)` tuple. -/
def StoredEntry.newerThan (a b : StoredEntry) : Bool :=
  decide (b.timestamp < a.timestamp) ||
    (decide (b.timestamp = a.timestamp) &&
      (decide (b.payload_digest < a.payload_digest) ||
        (decide (b.payload_digest = a.payload_digest) &&
          decide (b.payload_length < a.payload_length))))

/-- The `(timestamp, payload_digest, payload_length)` tuple of an `Entry`,
as `StoredEntry::from_auth_entry` records it (`stored_entry.rs` lines
93-110). -/
def tripleOf (e : Entry) : StoredEntry :=
  { timestamp := e.timestamp
    payload_digest := e.payload_digest
    payload_length := e.payload_length }

/-- One element of the `InMem` backend's nested
`BTreeMap<User, BTreeMap<Path, BinaryHeap<StoredEntry>>>` state
(`tests/basic/store/in_mem.rs` lines 52-63), flattened: the `User` key, the
`Path` key, and one `StoredEntry` of the history at that location.  The
flattening is faithful because every observable operation of `InMem` depends
only on the multiset of stored entries per `(subspace, path)` location: map
iteration order only fixes unspecified tie orders, and `BinaryHeap::peek`
returns a greatest element, all of which are equal as `StoredEntry`s. -/
structure StoreRecord where
  subspace_id : Nat
  path : PathT
  stored : StoredEntry
deriving DecidableEq, Repr

/-- The `InMem` backend state: the flattened multiset of stored records. -/
abbrev InMem : Type := List StoreRecord

/-- The `BinaryHeap<StoredEntry>` history at one `(subspace, path)` location
of the state (`StoredEntryHistory` of `in_mem.rs` line 52). -/
def historyAt (s : InMem) (u : Nat) (p : PathT) : List StoredEntry :=
  (s.filter (fun r => r.subspace_id == u && r.path == p)).map StoreRecord.stored

/-- The greater of two `StoredEntry`s under the newness order (ties yield the
second, which then equals the first, as a `StoredEntry` is exactly its
comparison tuple). -/
def maxOfS (a b : StoredEntry) : StoredEntry :=
  if a.newerThan b then a else b

/-- Mirrors `BinaryHeap::peek` on a history: a greatest element under
`StoredEntry`'s newness order, or `none` when the history is empty. -/
def heapPeek : List StoredEntry → Option StoredEntry
  | [] => none
  | x :: rest =>
    match heapPeek rest with
    | none => some x
    | some m => some (maxOfS x m)

/-- The newest stored entry at a location: `entry_history.peek()` as used by
`InMem::get` (`in_mem.rs` lines 124-130) and `iter_stored_entries` (lines
91-99). -/
def newestAt (s : InMem) (u : Nat) (p : PathT) : Option StoredEntry :=
  heapPeek (historyAt s u p)

/-- Mirrors the pruning check of `InMem::get` (`in_mem.rs` lines 132-146):
the entry found at `(u, p)` is pruned iff some location of the same subspace
whose path strictly prefixes `p` has a newest entry newer than `found`.
Quantifying over the records of `s` reaches exactly the locations of the
subspace's map (each location holds at least one record). -/
def isPrunedAt (s : InMem) (u : Nat) (p : PathT) (found : StoredEntry) : Bool :=
  s.any (fun r =>
    r.subspace_id == u && pathIsPrefixOf r.path p && !(r.path == p) &&
      (match newestAt s u r.path with
       | some n => n.newerThan found
       | none => false))

/-- Entry-level observability of `InMem::get` (`in_mem.rs` lines 114-169):
the newest entry retained at exactly `(u, p)`, or `none` when there is none
or it has been prefix-pruned.  Payload retrieval is abstracted away: when
this returns `some`, the code returns the payload or the
`FoundEntryMissingPayload` error, both of which surface the entry. -/
def inMemGet (s : InMem) (u : Nat) (p : PathT) : Option StoredEntry :=
  match newestAt s u p with
  | none => none
  | some found => if isPrunedAt s u p found then none else some found

/-- First-occurrence deduplication of location keys, scanning with a `seen`
accumulator (as `InMem::iter`'s `scan` does with its seen set): the keys of
the nested `BTreeMap`s, each once. -/
def dedupKeysAux (seen : List (Nat × PathT)) : List (Nat × PathT) → List (Nat × PathT)
  | [] => []
  | k :: rest =>
    if k ∈ seen then dedupKeysAux seen rest
    else k :: dedupKeysAux (k :: seen) rest

/-- The deduplicated location keys: the key set of the nested `BTreeMap`s
(which hold each key once). -/
def dedupKeys (l : List (Nat × PathT)) : List (Nat × PathT) :=
  dedupKeysAux [] l

/-- The `(subspace, path)` locations present in the state: the key set of
the nested maps.  The code iterates them in `BTreeMap` key order; this list
uses first-insertion order, which only changes unspecified tie orders
downstream. -/
def locationsOf (s : InMem) : List (Nat × PathT) :=
  dedupKeys (s.map (fun r => (r.subspace_id, r.path)))

/-- Mirrors `StoredEntry::to_entry` (`stored_entry.rs` lines 122-137):
rebuild the full `Entry` from a location and a stored tuple. -/
def mkEntryFrom (nsid : Nat) (u : Nat) (p : PathT) (t : StoredEntry) : Entry :=
  { namespace_id := nsid
    subspace_id := u
    path := p
    timestamp := t.timestamp
    payload_digest := t.payload_digest
    payload_length := t.payload_length }

/-- Mirrors `InMem::iter` (`in_mem.rs` lines 357-392): every location's
newest stored entry, with the prefix-pruned ones filtered out, rebuilt as
full `Entry`s (the `AuthorisationToken` part of the yielded
`AuthorisedEntry`s is dropped, as in the uses the claims concern).
`inMemGet` is exactly the newest-plus-prune-filter computation; the code's
`scan` over previously seen locations equals the all-locations check because
`BTreeMap` iteration yields prefixes before everything they prefix. -/
def iterEntries (nsid : Nat) (s : InMem) : List Entry :=
  (locationsOf s).filterMap (fun k =>
    match inMemGet s k.1 k.2 with
    | some f => some (mkEntryFrom nsid k.1 k.2 f)
    | none => none)

/-- The path limits of the test `Params` (`tests/basic/store/params.rs`
lines 92-94), which parameterise the `InMem` store model. -/
def TEST_LIMITS : PathLimits :=
  { maxComponentLength := 512, maxComponentCount := 128, maxPathLength := 8192 }

/-- Mirrors the `InMem` backend's `PutError` (`in_mem.rs` lines 402-412)
restricted to payload-less puts: the `Copy` and `WrongDigest` variants can
only arise when a payload is supplied, which the modelled puts do not. -/
inductive ExtPutError : Type where
  | PathLimit : PathLimitError → ExtPutError
deriving DecidableEq, Repr

/-- Mirrors the `InMem` backend's `JoinError` (`in_mem.rs` lines 414-419). -/
inductive ExtJoinError : Type where
  | WrongNamespace : Nat → ExtJoinError
  | Put : ExtPutError → ExtJoinError
deriving DecidableEq, Repr

/-- Mirrors `StoreExt::put` as implemented by `InMem` (`in_mem.rs` lines
171-260) for a payload-less put: convert the path through
`from_path_limited` (erroring on a limit violation), then push the
`StoredEntry` onto the history at its `(subspace, path)` location (the push
happens unconditionally, preserving all history; the payload-attachment
branches only adjust omitted payload fields). -/
def extPut (s : InMem) (e : Entry) : Except ExtPutError InMem :=
  match fromPathLimited TEST_LIMITS e.path with
  | Except.ok p =>
    Except.ok (s ++ [{ subspace_id := e.subspace_id, path := p, stored := tripleOf e }])
  | Except.error err => Except.error (ExtPutError.PathLimit err)

/-- Mirrors `StoredEntry::to_auth_entry`'s entry part (`stored_entry.rs`
lines 139-169) as `InMem::join` uses it: rebuild the record's `Entry` with
the joining store's namespace. -/
def recToEntry (nsid : Nat) (r : StoreRecord) : Entry :=
  mkEntryFrom nsid r.subspace_id r.path r.stored

/-- The loop of `InMem::join` (`in_mem.rs` lines 272-284): `put` every
stored entry of every history of `other` into `self`, stopping at the first
failing put. -/
def extJoinGo (nsid : Nat) (s : InMem) : List StoreRecord → Except ExtJoinError InMem
  | [] => Except.ok s
  | r :: rest =>
    match extPut s (recToEntry nsid r) with
    | Except.ok s' => extJoinGo nsid s' rest
    | Except.error e => Except.error (ExtJoinError.Put e)

/-- Mirrors `StoreExt::join` as implemented by `InMem` (`in_mem.rs` lines
262-289): re-check the namespaces, then put all of `other`'s records. -/
def extJoin (nsid : Nat) (s : InMem) (other : InMem) (other_nsid : Nat) :
    Except ExtJoinError InMem :=
  if other_nsid == nsid then extJoinGo nsid s other
  else Except.error (ExtJoinError.WrongNamespace other_nsid)

/-- Mirrors `PutError<E>` of `packages/data_model/src/store/errors.rs`
(lines 11-17). -/
inductive PutError (ε : Type) : Type where
  | DifferentNamespace : PutError ε
  | Put : ε → PutError ε
deriving DecidableEq, Repr

/-- Mirrors `JoinError<E>` of `store/errors.rs` (lines 38-44). -/
inductive JoinError (ε : Type) : Type where
  | DifferentNamespace : JoinError ε
  | Join : ε → JoinError ε
deriving DecidableEq, Repr

/-- Mirrors `Store<NamespaceId, Ext>` of `packages/data_model/src/store.rs`
(lines 37-42), with the `InMem` backend as `Ext`. -/
structure Store where
  namespace_id : Nat
  ext : InMem
deriving DecidableEq, Repr

/-- Mirrors `Store::new` (`store.rs` lines 59-66) over an initially empty
`InMem` backend (`InMem::new`, `in_mem.rs` lines 67-71). -/
def emptyStore (nsid : Nat) : Store :=
  { namespace_id := nsid, ext := [] }

/-- Mirrors `Store::put` (`store.rs` lines 228-245): delegate to the backend
when the entry's namespace equals the store's, wrapping backend errors in
`PutError::Put`; otherwise fail with `PutError::DifferentNamespace`. -/
def storePut (st : Store) (e : Entry) : Except (PutError ExtPutError) Store :=
  if st.namespace_id == e.namespace_id then
    match extPut st.ext e with
    | Except.ok s' => Except.ok { st with ext := s' }
    | Except.error err => Except.error (PutError.Put err)
  else Except.error PutError.DifferentNamespace

/-- Mirrors `Store::join` (`store.rs` lines 247-262): delegate to the
backend when the namespaces are equal, wrapping backend errors in
`JoinError::Join`; otherwise fail with `JoinError::DifferentNamespace`. -/
def storeJoin (st other : Store) : Except (JoinError ExtJoinError) Store :=
  if st.namespace_id == other.namespace_id then
    match extJoin st.namespace_id st.ext other.ext other.namespace_id with
    | Except.ok s' => Except.ok { st with ext := s' }
    | Except.error err => Except.error (JoinError.Join err)
  else Except.error JoinError.DifferentNamespace

/-- A sequence of `Store::put` calls, stopping at the first failure: how the
claims' "store built by a sequence of successful puts" is expressed. -/
def applyPuts (st : Store) : List Entry → Except (PutError ExtPutError) Store
  | [] => Except.ok st
  | e :: rest =>
    match storePut st e with
    | Except.ok st' => applyPuts st' rest
    | Except.error err => Except.error err

/-- Entry-level observability through `Store::get`/`InMem::get`: `e` is
observable in namespace `nsid` of state `s` iff its namespace is the
store's and `get` at its `(subspace, path)` surfaces exactly its stored
tuple.  Theorems below relate this to membership in `iterEntries`. -/
def observedGet (nsid : Nat) (s : InMem) (e : Entry) : Bool :=
  e.namespace_id == nsid && (inMemGet s e.subspace_id e.path == some (tripleOf e))

/-- The sort relation of the newest-query (`in_mem.rs` line 315,
`newest.sort_unstable_by(|a, b| b.cmp_newer_than(a))`): `a` may precede `b`
iff `b` is not newer than `a`, putting the newest first. -/
def newestLe (a b : Entry) : Prop :=
  Entry.is_newer_than b a = false

instance : DecidableRel newestLe := fun a b => instDecidableEqBool (Entry.is_newer_than b a) false

instance : IsTotal Entry newestLe where
  total a b := by
    simp only [newestLe, Entry.is_newer_than, Bool.or_eq_false_iff, Bool.and_eq_false_iff,
      decide_eq_false_iff_not, not_lt]
    omega

instance : IsTrans Entry newestLe where
  trans a b c := by
    simp only [newestLe, Entry.is_newer_than, Bool.or_eq_false_iff, Bool.and_eq_false_iff,
      decide_eq_false_iff_not, not_lt]
    omega

/-- The descending-newness sort of the newest-query.  The code's
`sort_unstable_by` leaves the order of newness-ties unspecified; insertion
sort is one compliant realisation. -/
def sortNewest (l : List Entry) : List Entry :=
  List.insertionSort newestLe l

/-- Mirrors `u64::MAX`. -/
def U64_MAX : Nat := 2 ^ 64 - 1

/-- Mirrors `u64::checked_add`: `none` when the sum exceeds `u64::MAX`. -/
def checkedAddU64 (a b : Nat) : Option Nat :=
  if a + b ≤ U64_MAX then some (a + b) else none

/-- The `try_fold` of the newest-query's size check (`in_mem.rs` lines
322-339): walk the sorted-descending list with the running total (starting
from the candidate's own `payload_length`); on reaching the candidate,
succeed with the total; on a `checked_add` overflow or on exhausting the
list without finding the candidate, fail (`none`). -/
def sizeFold : List Entry → Entry → Nat → Option Nat
  | [], _, _ => none
  | f :: rest, e, acc =>
    if e == f then some acc
    else
      match checkedAddU64 acc f.payload_length with
      | some t => sizeFold rest e t
      | none => none

/-- Mirrors `InMem::newest_includes_within_total_size` (`in_mem.rs` lines
291-355): with no budgets, just membership among the retained entries;
otherwise sort the retained entries newest-first, truncate to `max_count`
when limited, and either check membership (no size budget) or run the size
fold and compare the total against `max_size`. -/
def inMemNewestIncludesWithinTotalSize (nsid : Nat) (s : InMem)
    (maxCount : Option Nat) (e : Entry) (maxSize : Option Nat) : Bool :=
  let entries := iterEntries nsid s
  match maxCount, maxSize with
  | none, none => entries.any (fun f => e == f)
  | _, _ =>
    let sorted := sortNewest entries
    let newest :=
      match maxCount with
      | some k => sorted.take k
      | none => sorted
    match maxSize with
    | some maxSz =>
      match sizeFold newest e e.payload_length with
      | some total => decide (total ≤ maxSz)
      | none => false
    | none => newest.any (fun f => e == f)

/-- Mirrors `Store::newest_includes_within_total_size` (`store.rs` lines
264-282): the entry's namespace must equal the store's, and the backend
query must accept. -/
def storeNewestIncludesWithinTotalSize (st : Store) (maxCount : Option Nat)
    (e : Entry) (maxSize : Option Nat) : Bool :=
  st.namespace_id == e.namespace_id &&
    inMemNewestIncludesWithinTotalSize st.namespace_id st.ext maxCount e maxSize

/-- Mirrors `Max` of `crates/data_model/src/group/area/of_interest.rs`
(lines 45-53); `Limit` carries a `NonZeroU64` in the code. -/
inductive Max : Type where
  | Limit : Nat → Max
  | Unlimited : Max
deriving DecidableEq, Repr

/-- Mirrors `AreaOfInterest` of `of_interest.rs` (lines 27-37). -/
structure AreaOfInterest where
  area : Area
  max_count : Max
  max_size : Max
deriving DecidableEq, Repr

/-- Mirrors `Store::newest_entries_include` (`crates/data_model/src/store.rs`
lines 83-91), whose body in the crate is `todo!()`: whether `e` is among the
`maxCount` newest entries of the store.  Its executable semantics follows
the `InMem` backend's `newest_includes_within_total_size` with
`max_size = None` (`in_mem.rs` lines 306-320 and 351-354): sort the retained
entries newest-first, truncate to `maxCount`, and test membership. -/
def newest_entries_include (st : Store) (maxCount : Nat) (e : Entry) : Bool :=
  ((sortNewest (iterEntries st.namespace_id st.ext)).take maxCount).any (fun f => e == f)

/-- Mirrors `Store::payloads_total_size_of_entry_to_newest`
(`crates/data_model/src/store.rs` lines 93-102), whose body in the crate is
`todo!()`: per its doc comment, the sum of the `payload_length`s of `e` and
all newer entries in the store, or `none` if summing overflowed.  Its
executable semantics follows the `InMem` backend's size fold (`in_mem.rs`
lines 322-350), which also yields `none` when `e` is not retained. -/
def payloads_total_size_of_entry_to_newest (st : Store) (e : Entry) : Option Nat :=
  sizeFold (sortNewest (iterEntries st.namespace_id st.ext)) e e.payload_length

/-- Mirrors `AreaOfInterest::includes` (`crates/data_model/src/group/area/`
`of_interest.rs` lines 70-103): the entry's namespace equals the store's,
the area includes the entry, the entry is within the `max_count` budget
(among the `max_count` newest entries of the store), and within the
`max_size` budget (the summed payload sizes of it and all newer entries is
at most `max_size`, overflow counting as exceeding). -/
def aoiIncludes (aoi : AreaOfInterest) (e : Entry) (st : Store) : Bool :=
  (e.namespace_id == st.namespace_id) &&
    aoi.area.includesEntry e &&
    (match aoi.max_count with
     | Max.Unlimited => true
     | Max.Limit max_count => newest_entries_include st max_count e) &&
    (match aoi.max_size with
     | Max.Unlimited => true
     | Max.Limit max_size =>
       match payloads_total_size_of_entry_to_newest st e with
       | some sum => decide (sum ≤ max_size)
       | none => false)

/-! Helper lemmas. -/

theorem is_newer_than_iff (a b : Entry) :
    Entry.is_newer_than a b = true ↔
      b.timestamp < a.timestamp ∨
        (b.timestamp = a.timestamp ∧
          (b.payload_digest < a.payload_digest ∨
            (b.payload_digest = a.payload_digest ∧ b.payload_length < a.payload_length))) := by
  simp [Entry.is_newer_than]

theorem newerThanS_iff (a b : StoredEntry) :
    StoredEntry.newerThan a b = true ↔
      b.timestamp < a.timestamp ∨
        (b.timestamp = a.timestamp ∧
          (b.payload_digest < a.payload_digest ∨
            (b.payload_digest = a.payload_digest ∧ b.payload_length < a.payload_length))) := by
  simp [StoredEntry.newerThan]

theorem is_newer_than_triple (a b : Entry) :
    Entry.is_newer_than a b = (tripleOf a).newerThan (tripleOf b) := rfl

theorem newerThanS_antisymm {a b : StoredEntry} (h1 : a.newerThan b = false)
    (h2 : b.newerThan a = false) : a = b := by
  cases a
  cases b
  simp only [StoredEntry.newerThan] at h1 h2
  simp only [Bool.or_eq_false_iff, Bool.and_eq_false_iff, decide_eq_false_iff_not] at h1 h2
  simp only [StoredEntry.mk.injEq]
  omega

theorem pathIsPrefixOf_iff (s t : PathT) : pathIsPrefixOf s t = true ↔ s <+: t := by
  simp only [pathIsPrefixOf, Bool.and_eq_true, decide_eq_true_eq, beq_iff_eq]
  constructor
  · rintro ⟨-, h⟩
    exact h ▸ List.take_prefix s.length t
  · intro h
    exact ⟨h.length_le, (List.prefix_iff_eq_take.mp h)⟩

/-! Claim C5. -/

/-- C5: for all `Range`s `a` and `b` over an ordered type, `intersection` is
commutative, and a value included in the intersection is included in both
`a` and `b`. -/
theorem range_intersection_comm_and_sound {α : Type} [LinearOrder α] (a b : Range α) (v : α) :
    a.intersection b = b.intersection a ∧
      ((a.intersection b).includes v = true →
        a.includes v = true ∧ b.includes v = true) := by
  constructor
  · cases ha : a.stop <;> cases hb : b.stop <;>
      simp [Range.intersection, ha, hb, max_comm, min_comm]
  · intro h
    cases ha : a.stop <;> cases hb : b.stop <;>
      simp only [Range.includes, Range.intersection, ha, hb, Bool.and_eq_true,
        decide_eq_true_eq, max_le_iff, lt_min_iff] at h ⊢ <;>
      tauto

/-- C5 witness: the theorem at concrete ranges over `Nat`. -/
theorem range_intersection_comm_and_sound_witness :
    (Range.mk 1 (REnd.Closed 5)).intersection (Range.mk 2 REnd.Open) =
        (Range.mk 2 REnd.Open).intersection (Range.mk 1 (REnd.Closed 5)) ∧
      (((Range.mk 1 (REnd.Closed 5)).intersection (Range.mk 2 REnd.Open)).includes 3 = true →
        (Range.mk 1 (REnd.Closed 5)).includes 3 = true ∧
          (Range.mk 2 REnd.Open).includes 3 = true) :=
  range_intersection_comm_and_sound (Range.mk 1 (REnd.Closed 5)) (Range.mk 2 REnd.Open) 3

/-! Claim C8. -/

/-- C8: `from_path_limited` accepts a path with `MAX_COMPONENT_COUNT + 1`
components (here the limit is `1` and the path has `2` components, each
within the length limits), because the code checks the 0-based component
index with `index <= MAX_COMPONENT_COUNT`.  Per the claim (and the doc
comments of `Params::MAX_COMPONENT_COUNT` and
`PathLimitError::within_max_component_count`), a path with more than
`MAX_COMPONENT_COUNT` components must be rejected, so this conversion
should have returned an error. -/
theorem from_path_limited_count_off_by_one :
    fromPathLimited { maxComponentLength := 1, maxComponentCount := 1, maxPathLength := 10 }
        [[0], [1]] = Except.ok [[0], [1]] ∧
      2 > 1 := by
  constructor
  · rfl
  · decide

/-! Claim C7. -/

/-- C7: `Store::put` fails with `PutError::DifferentNamespace` iff the
entry's namespace differs from the store's, and `Store::join` fails with
`JoinError::DifferentNamespace` iff the other store's namespace differs;
when the namespaces match, the operations delegate to the backend, whose
outcome is success or an error wrapped in `Put`/`Join` (so never
`DifferentNamespace`). -/
theorem store_put_join_namespace_check (st other : Store) (e : Entry) :
    (storePut st e = Except.error PutError.DifferentNamespace ↔
        e.namespace_id ≠ st.namespace_id) ∧
      (storeJoin st other = Except.error JoinError.DifferentNamespace ↔
        other.namespace_id ≠ st.namespace_id) ∧
      (e.namespace_id = st.namespace_id →
        (∃ st', storePut st e = Except.ok st') ∨
          (∃ ε, storePut st e = Except.error (PutError.Put ε))) ∧
      (other.namespace_id = st.namespace_id →
        (∃ st', storeJoin st other = Except.ok st') ∨
          (∃ ε, storeJoin st other = Except.error (JoinError.Join ε))) := by
  refine ⟨?_, ?_, ?_, ?_⟩
  · unfold storePut
    cases hbe : st.namespace_id == e.namespace_id
    · have hne : e.namespace_id ≠ st.namespace_id := Ne.symm (beq_eq_false_iff_ne.mp hbe)
      simp [hne]
    · simp only [if_true]
      have heq : e.namespace_id = st.namespace_id := (beq_iff_eq.mp hbe).symm
      constructor
      · intro hcontra
        cases hput : extPut st.ext e <;> rw [hput] at hcontra <;> simp at hcontra
      · intro hne
        exact absurd heq hne
  · unfold storeJoin
    cases hbe : st.namespace_id == other.namespace_id
    · have hne : other.namespace_id ≠ st.namespace_id := Ne.symm (beq_eq_false_iff_ne.mp hbe)
      simp [hne]
    · simp only [if_true]
      have heq : other.namespace_id = st.namespace_id := (beq_iff_eq.mp hbe).symm
      constructor
      · intro hcontra
        cases hj : extJoin st.namespace_id st.ext other.ext other.namespace_id <;>
          rw [hj] at hcontra <;> simp at hcontra
      · intro hne
        exact absurd heq hne
  · intro h
    unfold storePut
    have hbe : (st.namespace_id == e.namespace_id) = true := beq_iff_eq.mpr h.symm
    rw [hbe]
    simp only [if_true]
    cases hput : extPut st.ext e
    · right
      exact ⟨_, rfl⟩
    · left
      exact ⟨_, rfl⟩
  · intro h
    unfold storeJoin
    have hbe : (st.namespace_id == other.namespace_id) = true := beq_iff_eq.mpr h.symm
    rw [hbe]
    simp only [if_true]
    cases hj : extJoin st.namespace_id st.ext other.ext other.namespace_id
    · right
      exact ⟨_, rfl⟩
    · left
      exact ⟨_, rfl⟩

/-- C7 witness: the theorem at a concrete store, other store and entry. -/
theorem store_put_join_namespace_check_witness :
    (storePut (emptyStore 0) (Entry.mk 1 0 [] 0 0 0) =
          Except.error PutError.DifferentNamespace ↔
        (Entry.mk 1 0 [] 0 0 0).namespace_id ≠ (emptyStore 0).namespace_id) ∧
      (storeJoin (emptyStore 0) (emptyStore 1) = Except.error JoinError.DifferentNamespace ↔
        (emptyStore 1).namespace_id ≠ (emptyStore 0).namespace_id) ∧
      ((Entry.mk 1 0 [] 0 0 0).namespace_id = (emptyStore 0).namespace_id →
        (∃ st', storePut (emptyStore 0) (Entry.mk 1 0 [] 0 0 0) = Except.ok st') ∨
          (∃ ε, storePut (emptyStore 0) (Entry.mk 1 0 [] 0 0 0) =
            Except.error (PutError.Put ε))) ∧
      ((emptyStore 1).namespace_id = (emptyStore 0).namespace_id →
        (∃ st', storeJoin (emptyStore 0) (emptyStore 1) = Except.ok st') ∨
          (∃ ε, storeJoin (emptyStore 0) (emptyStore 1) =
            Except.error (JoinError.Join ε))) :=
  store_put_join_namespace_check (emptyStore 0) (emptyStore 1) (Entry.mk 1 0 [] 0 0 0)

theorem range_nonempty_includes_start (b : Range Nat) (h : b.is_empty = false) :
    b.includes b.start = true := by
  rcases b with ⟨bs, bstop⟩
  cases bstop with
  | Closed e =>
    simp only [Range.is_empty, decide_eq_false_iff_not, not_le] at h
    simp only [Range.includes, Bool.and_eq_true, decide_eq_true_eq]
    exact ⟨le_refl bs, h⟩
  | Open =>
    simp [Range.includes]

theorem range_includes_range_pointwise (a b : Range Nat) :
    a.includes_range b = true ↔ ∀ v : Nat, b.includes v = true → a.includes v = true := by
  rcases a with ⟨as, astop⟩
  rcases b with ⟨bs, bstop⟩
  cases astop <;> cases bstop <;>
    simp only [Range.includes_range, Range.is_empty, Range.includes, Bool.or_eq_true,
      Bool.and_eq_true, decide_eq_true_eq, and_true, Bool.false_eq_true, and_false,
      false_or, or_false]
  case Closed.Closed ae be =>
    constructor
    · intro h v hv
      omega
    · intro h
      by_cases hbe2 : be ≤ bs
      · exact Or.inl hbe2
      · have h1 := h bs ⟨le_refl bs, by omega⟩
        refine Or.inr ⟨h1.1, ?_⟩
        by_contra hlt
        have h2 := h ae ⟨by omega, by omega⟩
        omega
  case Closed.Open ae =>
    constructor
    · intro h
      exact h.elim
    · intro h
      exfalso
      have h1 := h bs (le_refl bs)
      have h2 := h ae (by omega)
      omega
  case Open.Closed be =>
    constructor
    · intro h v hv
      omega
    · intro h
      by_cases hbe2 : be ≤ bs
      · exact Or.inl hbe2
      · exact Or.inr (h bs ⟨le_refl bs, by omega⟩)
  case Open.Open =>
    constructor
    · intro h v hv
      omega
    · intro h
      exact h bs (le_refl bs)

theorem emptyA_includesEntry (e : Entry) : Area.emptyA.includesEntry e = false := by
  simp only [Area.includesEntry, Area.emptyA, Range.emptyR, Range.includes,
    Bool.and_eq_false_iff]
  right
  simp

theorem area_includesEntry_mk (b : Area) (u v : Nat)
    (hu : b.subspace.includesSel (Subspace.Id u) = true)
    (hv : b.times.includes v = true) :
    b.includesEntry (Entry.mk 0 u b.path v 0 0) = true := by
  simp only [Area.includesEntry, Bool.and_eq_true]
  exact ⟨⟨hu, pathIsPrefixOf_iff b.path b.path |>.mpr (List.prefix_refl b.path)⟩, hv⟩

/-! Claim C3. -/

/-- C3 counterexample: at `a = Area { subspace: Id 0, path: [], times: 0.. }`
and `b = Area::empty()`, every entry included by `b` is (vacuously) included
by `a`, yet `a.includes(b)` is `false`, because the code applies the
subspace-selector check (`Id 0` does not accept `Any`) even though `b` is
empty.  So `a.includes(b)` is not equivalent to entry-wise inclusion, and in
particular is not always `true` for empty `b`. -/
theorem area_includes_empty_area_cex :
    ¬(Area.includesArea (Area.mk (Subspace.Id 0) [] (Range.mk 0 REnd.Open)) Area.emptyA =
          true ↔
        ∀ e : Entry, Area.emptyA.includesEntry e = true →
          (Area.mk (Subspace.Id 0) [] (Range.mk 0 REnd.Open)).includesEntry e = true) := by
  intro hiff
  have hincl :
      Area.includesArea (Area.mk (Subspace.Id 0) [] (Range.mk 0 REnd.Open)) Area.emptyA =
        true := by
    refine hiff.mpr ?_
    intro e he
    rw [emptyA_includesEntry e] at he
    exact absurd he (by decide)
  exact absurd hincl (by decide)

/-- C3 amended: for Areas `a` and `b` with `b` non-empty, `a.includes(b)` is
`true` iff every `Entry` included by `b` is also included by `a`.  (For
empty `b`, the counterexample shows the code can return `false` although
the entry-wise condition holds vacuously: the subspace and path checks are
applied regardless of emptiness.) -/
theorem area_includes_area_extensional (a b : Area) (h : b.is_emptyA = false) :
    a.includesArea b = true ↔
      ∀ e : Entry, b.includesEntry e = true → a.includesEntry e = true := by
  have hbstart : b.times.includes b.times.start = true :=
    range_nonempty_includes_start b.times h
  constructor
  · intro hsyn e he
    simp only [Area.includesArea, Bool.and_eq_true] at hsyn
    obtain ⟨⟨hsub, hpath⟩, htimes⟩ := hsyn
    simp only [Area.includesEntry, Bool.and_eq_true] at he ⊢
    obtain ⟨⟨hesub, hepath⟩, hetime⟩ := he
    refine ⟨⟨?_, ?_⟩, ?_⟩
    · cases hA : a.subspace with
      | Any => simp [Subspace.includesSel]
      | Id x =>
        cases hB : b.subspace with
        | Any =>
          rw [hA, hB] at hsub
          simp [Subspace.includesSel] at hsub
        | Id y =>
          rw [hA, hB] at hsub
          rw [hB] at hesub
          simp only [Subspace.includesSel, beq_iff_eq] at hsub hesub ⊢
          exact hsub.trans hesub
    · rw [pathIsPrefixOf_iff] at hpath hepath ⊢
      exact hpath.trans hepath
    · exact (range_includes_range_pointwise a.times b.times).mp htimes e.timestamp hetime
  · intro hext
    simp only [Area.includesArea, Bool.and_eq_true]
    refine ⟨⟨?_, ?_⟩, ?_⟩
    · cases hB : b.subspace with
      | Id s =>
        have he := hext (Entry.mk 0 s b.path b.times.start 0 0)
          (area_includesEntry_mk b s b.times.start
            (by rw [hB]; simp [Subspace.includesSel]) hbstart)
        simp only [Area.includesEntry, Bool.and_eq_true] at he
        exact he.1.1
      | Any =>
        cases hA : a.subspace with
        | Any => simp [Subspace.includesSel]
        | Id x =>
          exfalso
          have he := hext (Entry.mk 0 (x + 1) b.path b.times.start 0 0)
            (area_includesEntry_mk b (x + 1) b.times.start
              (by rw [hB]; simp [Subspace.includesSel]) hbstart)
          simp only [Area.includesEntry, Bool.and_eq_true, hA] at he
          have := he.1.1
          simp only [Subspace.includesSel, beq_iff_eq] at this
          omega
    · have hsb : b.subspace.includesSel
          (Subspace.Id (match b.subspace with
            | Subspace.Id s => s
            | Subspace.Any => 0)) = true := by
        cases b.subspace <;> simp [Subspace.includesSel]
      have he := hext (Entry.mk 0 _ b.path b.times.start 0 0)
        (area_includesEntry_mk b _ b.times.start hsb hbstart)
      simp only [Area.includesEntry, Bool.and_eq_true] at he
      exact he.1.2
    · refine (range_includes_range_pointwise a.times b.times).mpr ?_
      intro v hv
      have hsb : b.subspace.includesSel
          (Subspace.Id (match b.subspace with
            | Subspace.Id s => s
            | Subspace.Any => 0)) = true := by
        cases b.subspace <;> simp [Subspace.includesSel]
      have he := hext (Entry.mk 0 _ b.path v 0 0) (area_includesEntry_mk b _ v hsb hv)
      simp only [Area.includesEntry, Bool.and_eq_true] at he
      exact he.2

/-- C3 amended witness: the theorem at concrete non-empty areas. -/
theorem area_includes_area_extensional_witness :
    (Area.mk (Subspace.Id 3) [[1]] (Range.mk 5 (REnd.Closed 9))).is_emptyA = false ∧
      (Area.includesArea (Area.mk Subspace.Any [] (Range.mk 0 REnd.Open))
          (Area.mk (Subspace.Id 3) [[1]] (Range.mk 5 (REnd.Closed 9))) = true ↔
        ∀ e : Entry,
          (Area.mk (Subspace.Id 3) [[1]] (Range.mk 5 (REnd.Closed 9))).includesEntry e =
              true →
            (Area.mk Subspace.Any [] (Range.mk 0 REnd.Open)).includesEntry e = true) :=
  ⟨by decide,
    area_includes_area_extensional (Area.mk Subspace.Any [] (Range.mk 0 REnd.Open))
      (Area.mk (Subspace.Id 3) [[1]] (Range.mk 5 (REnd.Closed 9))) (by decide)⟩

theorem pathPrefix_length_le {s t : PathT} (h : pathIsPrefixOf s t = true) :
    s.length ≤ t.length :=
  ((pathIsPrefixOf_iff s t).mp h).length_le

theorem pathPrefix_eq_of_length_le {s t : PathT} (h : pathIsPrefixOf s t = true)
    (hl : t.length ≤ s.length) : s = t := by
  have hp := (pathIsPrefixOf_iff s t).mp h
  exact hp.eq_of_length (le_antisymm hp.length_le hl)

theorem intersection_tail_eq (apath bpath : PathT) (atimes btimes : Range Nat)
    (sub : Subspace Nat) :
    (match
      (if pathIsPrefixOf apath bpath then some bpath
       else if pathIsPrefixOf bpath apath then some apath
       else none) with
    | none => Area.emptyA
    | some path =>
      if (atimes.intersection btimes).is_empty then Area.emptyA
      else { subspace := sub, path := path, times := atimes.intersection btimes }) =
    (if !(pathIsPrefixOf apath bpath || pathIsPrefixOf bpath apath) then Area.emptyA
     else if (atimes.intersection btimes).is_empty then Area.emptyA
     else { subspace := sub,
            path := if bpath.length ≤ apath.length then apath else bpath,
            times := atimes.intersection btimes }) := by
  by_cases hab : pathIsPrefixOf apath bpath = true
  · simp only [hab, if_true, Bool.true_or, Bool.not_true, Bool.false_eq_true, if_false]
    by_cases hemp : (atimes.intersection btimes).is_empty = true
    · simp [hemp]
    · simp only [hemp, Bool.false_eq_true, if_false, Area.mk.injEq, true_and, and_true]
      by_cases hlen : bpath.length ≤ apath.length
      · have heq : apath = bpath := pathPrefix_eq_of_length_le hab hlen
        simp [hlen, heq]
      · simp [hlen]
  · by_cases hba : pathIsPrefixOf bpath apath = true
    · simp only [Bool.not_eq_true] at hab
      simp only [hab, hba, Bool.false_eq_true, if_false, if_true, Bool.false_or,
        Bool.not_true]
      by_cases hemp : (atimes.intersection btimes).is_empty = true
      · simp [hemp]
      · simp only [hemp, Bool.false_eq_true, if_false, Area.mk.injEq, true_and, and_true]
        simp [pathPrefix_length_le hba]
    · simp only [Bool.not_eq_true] at hab hba
      simp [hab, hba]

/-! Claim C4. -/

/-- C4: `Area::intersection` computes exactly the rule the spec states:
the canonical empty `Area` when the subspaces disagree on a concrete id, or
neither path prefixes the other, or the intersection of the time ranges is
empty; otherwise the concrete subspace side (`Any` if both are `Any`), the
longer of the two paths, and the `Range` intersection of the time ranges. -/
theorem area_intersection_follows_spec (a b : Area) :
    a.intersection b = Area.intersectionSpec a b := by
  rcases a with ⟨asub, apath, atimes⟩
  rcases b with ⟨bsub, bpath, btimes⟩
  cases asub with
  | Id x =>
    cases bsub with
    | Id y =>
      by_cases hxy : x = y
      · subst hxy
        simp only [Area.intersection, Area.intersectionSpec, beq_self_eq_true, if_true,
          bne_self_eq_false, Bool.false_eq_true, if_false]
        exact intersection_tail_eq apath bpath atimes btimes (Subspace.Id x)
      · simp only [Area.intersection, Area.intersectionSpec,
          beq_eq_false_iff_ne.mpr hxy, Bool.false_eq_true, if_false,
          bne_iff_ne, ne_eq, hxy, not_false_eq_true, if_true]
    | Any =>
      simp only [Area.intersection, Area.intersectionSpec, Bool.false_eq_true, if_false]
      exact intersection_tail_eq apath bpath atimes btimes (Subspace.Id x)
  | Any =>
    cases bsub with
    | Id y =>
      simp only [Area.intersection, Area.intersectionSpec, Bool.false_eq_true, if_false]
      exact intersection_tail_eq apath bpath atimes btimes (Subspace.Id y)
    | Any =>
      simp only [Area.intersection, Area.intersectionSpec, Bool.false_eq_true, if_false]
      exact intersection_tail_eq apath bpath atimes btimes Subspace.Any

/-! Lemmas about the newness order on stored entries, and about `heapPeek`. -/

theorem newerThanS_false_iff (a b : StoredEntry) :
    StoredEntry.newerThan a b = false ↔
      ¬(b.timestamp < a.timestamp ∨
        (b.timestamp = a.timestamp ∧
          (b.payload_digest < a.payload_digest ∨
            (b.payload_digest = a.payload_digest ∧ b.payload_length < a.payload_length)))) := by
  rw [Bool.eq_false_iff, Ne, newerThanS_iff]

theorem newerThanS_irrefl (a : StoredEntry) : a.newerThan a = false := by
  rw [newerThanS_false_iff]
  omega

theorem newerThanS_trans {a b c : StoredEntry} (h1 : a.newerThan b = true)
    (h2 : b.newerThan c = true) : a.newerThan c = true := by
  rw [newerThanS_iff] at h1 h2 ⊢
  omega

theorem newerThanS_ge_trans {a m b : StoredEntry} (h1 : a.newerThan b = true)
    (h2 : a.newerThan m = false) : m.newerThan b = true := by
  rw [newerThanS_iff] at h1 ⊢
  rw [newerThanS_false_iff] at h2
  omega

theorem heapPeek_eq_none {l : List StoredEntry} : heapPeek l = none ↔ l = [] := by
  cases l with
  | nil => simp [heapPeek]
  | cons x rest =>
    simp only [heapPeek]
    cases heapPeek rest <;> simp

theorem heapPeek_mem {l : List StoredEntry} :
    ∀ {m : StoredEntry}, heapPeek l = some m → m ∈ l := by
  induction l with
  | nil =>
    intro m h
    simp [heapPeek] at h
  | cons x rest ih =>
    intro m h
    simp only [heapPeek] at h
    cases hr : heapPeek rest with
    | none =>
      rw [hr] at h
      simp only [Option.some.injEq] at h
      exact h ▸ List.mem_cons_self x rest
    | some mr =>
      rw [hr] at h
      simp only [Option.some.injEq] at h
      subst h
      by_cases hx : x.newerThan mr = true
      · simp [maxOfS, hx]
      · simp only [maxOfS, hx, Bool.false_eq_true, if_false]
        exact List.mem_cons_of_mem x (ih hr)

theorem heapPeek_is_max {l : List StoredEntry} :
    ∀ {m : StoredEntry}, heapPeek l = some m → ∀ x ∈ l, x.newerThan m = false := by
  induction l with
  | nil =>
    intro m h x hx
    simp at hx
  | cons y rest ih =>
    intro m h x hx
    simp only [heapPeek] at h
    cases hr : heapPeek rest with
    | none =>
      rw [hr] at h
      simp only [Option.some.injEq] at h
      have hrest : rest = [] := heapPeek_eq_none.mp hr
      subst hrest
      rcases List.mem_cons.mp hx with rfl | hxr
      · exact h ▸ newerThanS_irrefl x
      · simp at hxr
    | some mr =>
      rw [hr] at h
      simp only [Option.some.injEq] at h
      subst h
      rcases List.mem_cons.mp hx with rfl | hxr
      · by_cases hy : x.newerThan mr = true
        · simp [maxOfS, hy, newerThanS_irrefl]
        · simp [maxOfS, hy]
      · have hxm := ih hr x hxr
        by_cases hy : y.newerThan mr = true
        · simp only [maxOfS, hy, if_true]
          by_contra hc
          simp only [Bool.not_eq_false] at hc
          have := newerThanS_trans hc hy
          rw [this] at hxm
          exact absurd hxm (by decide)
        · simp only [maxOfS, hy, Bool.false_eq_true, if_false]
          exact hxm

theorem heapPeek_of_max {l : List StoredEntry} :
    ∀ {m : StoredEntry}, m ∈ l → (∀ x ∈ l, x.newerThan m = false) → heapPeek l = some m := by
  induction l with
  | nil =>
    intro m hm _
    simp at hm
  | cons y rest ih =>
    intro m hm hmax
    simp only [heapPeek]
    cases hr : heapPeek rest with
    | none =>
      have hrest : rest = [] := heapPeek_eq_none.mp hr
      subst hrest
      rcases List.mem_cons.mp hm with rfl | hmr
      · rfl
      · simp at hmr
    | some mr =>
      have hmr_mem : mr ∈ rest := heapPeek_mem hr
      have hmr_le : mr.newerThan m = false := hmax mr (List.mem_cons_of_mem y hmr_mem)
      have hy_le : y.newerThan m = false := hmax y (List.mem_cons_self y rest)
      rcases List.mem_cons.mp hm with rfl | hmr2
      · by_cases hy : m.newerThan mr = true
        · simp [maxOfS, hy]
        · have heq : mr = m :=
            newerThanS_antisymm hmr_le (Bool.eq_false_iff.mpr hy)
          simp [maxOfS, hy, heq]
      · have hpr := ih hmr2 (fun x hx => hmax x (List.mem_cons_of_mem y hx))
        rw [hr] at hpr
        simp only [Option.some.injEq] at hpr
        subst hpr
        simp [maxOfS, hy_le]

theorem heapPeek_append_comm (s t : List StoredEntry) :
    heapPeek (s ++ t) = heapPeek (t ++ s) := by
  cases h : heapPeek (s ++ t) with
  | none =>
    rcases List.append_eq_nil.mp (heapPeek_eq_none.mp h) with ⟨rfl, rfl⟩
    rfl
  | some m =>
    have hmem : m ∈ t ++ s := by
      have := heapPeek_mem h
      rw [List.mem_append] at this ⊢
      exact this.symm
    have hmax : ∀ x ∈ t ++ s, x.newerThan m = false := by
      intro x hx
      refine heapPeek_is_max h x ?_
      rw [List.mem_append] at hx ⊢
      exact hx.symm
    exact (heapPeek_of_max hmem hmax).symm

/-! Lemmas about the `InMem` state under append commutation. -/

theorem historyAt_append (s t : InMem) (u : Nat) (p : PathT) :
    historyAt (s ++ t) u p = historyAt s u p ++ historyAt t u p := by
  simp [historyAt, List.filter_append]

theorem newestAt_append_comm (s t : InMem) (u : Nat) (p : PathT) :
    newestAt (s ++ t) u p = newestAt (t ++ s) u p := by
  unfold newestAt
  rw [historyAt_append, historyAt_append, heapPeek_append_comm]

theorem isPrunedAt_append_comm (s t : InMem) (u : Nat) (p : PathT) (f : StoredEntry) :
    isPrunedAt (s ++ t) u p f = isPrunedAt (t ++ s) u p f := by
  have hswap : ∀ p', newestAt (s ++ t) u p' = newestAt (t ++ s) u p' := fun p' =>
    newestAt_append_comm s t u p'
  simp only [isPrunedAt, hswap, List.any_append]
  exact Bool.or_comm _ _

theorem inMemGet_append_comm (s t : InMem) (u : Nat) (p : PathT) :
    inMemGet (s ++ t) u p = inMemGet (t ++ s) u p := by
  unfold inMemGet
  rw [newestAt_append_comm s t u p]
  cases newestAt (t ++ s) u p with
  | none => rfl
  | some f => simp only [isPrunedAt_append_comm s t u p f]

theorem observedGet_append_comm (nsid : Nat) (s t : InMem) (e : Entry) :
    observedGet nsid (s ++ t) e = observedGet nsid (t ++ s) e := by
  unfold observedGet
  rw [inMemGet_append_comm]

/-! Lemmas about `put`, the location keys and `iter`. -/

theorem fromPathLimitedGo_ok {lim : PathLimits} {p q : PathT} :
    ∀ {i tot : Nat}, fromPathLimitedGo lim i tot p = Except.ok q → q = p := by
  induction p generalizing q with
  | nil =>
    intro i tot h
    simp only [fromPathLimitedGo] at h
    exact (Except.ok.injEq _ _ ▸ h).symm
  | cons c rest ih =>
    intro i tot h
    simp only [fromPathLimitedGo] at h
    split at h
    · split at h
      · rename_i cs hcs
        simp only [Except.ok.injEq] at h
        subst h
        rw [ih hcs]
      · exact absurd h (by simp)
    · exact absurd h (by simp)

theorem fromPathLimited_ok {lim : PathLimits} {p q : PathT}
    (h : fromPathLimited lim p = Except.ok q) : q = p :=
  fromPathLimitedGo_ok h

theorem storePut_ok {st st' : Store} {e : Entry} (h : storePut st e = Except.ok st') :
    st'.namespace_id = st.namespace_id ∧
      st'.ext = st.ext ++
        [{ subspace_id := e.subspace_id, path := e.path, stored := tripleOf e }] ∧
      e.namespace_id = st.namespace_id ∧
      fromPathLimited TEST_LIMITS e.path = Except.ok e.path := by
  unfold storePut at h
  cases hbe : st.namespace_id == e.namespace_id
  · rw [hbe] at h
    simp at h
  · rw [hbe] at h
    simp only [if_true] at h
    unfold extPut at h
    cases hfp : fromPathLimited TEST_LIMITS e.path with
    | ok p =>
      rw [hfp] at h
      simp only [Except.ok.injEq] at h
      have hid : p = e.path := fromPathLimited_ok hfp
      subst hid
      subst h
      exact ⟨rfl, rfl, (beq_iff_eq.mp hbe).symm, rfl⟩
    | error err =>
      rw [hfp] at h
      simp at h

theorem mem_dedupKeysAux {l : List (Nat × PathT)} :
    ∀ {seen : List (Nat × PathT)} {x : Nat × PathT},
      x ∈ dedupKeysAux seen l ↔ (x ∈ l ∧ x ∉ seen) := by
  induction l with
  | nil =>
    intro seen x
    simp [dedupKeysAux]
  | cons k rest ih =>
    intro seen x
    simp only [dedupKeysAux]
    by_cases hk : k ∈ seen
    · simp only [hk, if_true, ih, List.mem_cons]
      by_cases hx : x = k
      · subst hx
        simp [hk]
      · simp [hx]
    · simp only [hk, if_false, List.mem_cons, ih]
      by_cases hx : x = k
      · subst hx
        simp [hk]
      · simp [hx]

theorem mem_dedupKeys {l : List (Nat × PathT)} {x : Nat × PathT} :
    x ∈ dedupKeys l ↔ x ∈ l := by
  simp [dedupKeys, mem_dedupKeysAux]

theorem mem_locationsOf {s : InMem} {u : Nat} {p : PathT} :
    (u, p) ∈ locationsOf s ↔ ∃ r ∈ s, r.subspace_id = u ∧ r.path = p := by
  unfold locationsOf
  rw [mem_dedupKeys, List.mem_map]
  constructor
  · rintro ⟨r, hr, heq⟩
    simp only [Prod.mk.injEq] at heq
    exact ⟨r, hr, heq.1, heq.2⟩
  · rintro ⟨r, hr, h1, h2⟩
    exact ⟨r, hr, by simp [h1, h2]⟩

theorem mem_iterEntries {nsid : Nat} {s : InMem} {e : Entry} :
    e ∈ iterEntries nsid s ↔ observedGet nsid s e = true := by
  unfold iterEntries
  rw [List.mem_filterMap]
  constructor
  · rintro ⟨k, hk, hsome⟩
    cases hget : inMemGet s k.1 k.2 with
    | none => rw [hget] at hsome; simp at hsome
    | some f =>
      rw [hget] at hsome
      simp only [Option.some.injEq] at hsome
      subst hsome
      unfold observedGet
      simp [mkEntryFrom, tripleOf, hget]
  · intro h
    unfold observedGet at h
    simp only [Bool.and_eq_true, beq_iff_eq] at h
    obtain ⟨h1, h2⟩ := h
    refine ⟨(e.subspace_id, e.path), ?_, ?_⟩
    · refine mem_locationsOf.mpr ?_
      have hne : historyAt s e.subspace_id e.path ≠ [] := by
        intro hnil
        unfold inMemGet newestAt at h2
        rw [hnil] at h2
        simp [heapPeek] at h2
      have hfilter : (s.filter
          (fun r => r.subspace_id == e.subspace_id && r.path == e.path)) ≠ [] := by
        intro hnil
        exact hne (by simp [historyAt, hnil])
      rcases List.exists_mem_of_ne_nil _ hfilter with ⟨r, hr⟩
      rw [List.mem_filter] at hr
      obtain ⟨hrs, hrp⟩ := hr
      simp only [Bool.and_eq_true, beq_iff_eq] at hrp
      exact ⟨r, hrs, hrp.1, hrp.2⟩
    · rw [h2]
      simp only [Option.some.injEq]
      cases e
      simp only [mkEntryFrom, tripleOf] at h1 ⊢
      simp [h1]

/-! Claim C9. -/

/-- C9: an entry whose namespace differs from the store's is silently
excluded: `Store::newest_includes_within_total_size` returns `false` for
every choice of the two budgets, and `AreaOfInterest::includes` returns
`false` for every `AreaOfInterest`, with no error involved. -/
theorem foreign_namespace_excluded (st : Store) (e : Entry)
    (h : e.namespace_id ≠ st.namespace_id) :
    (∀ maxCount maxSize : Option Nat,
        storeNewestIncludesWithinTotalSize st maxCount e maxSize = false) ∧
      (∀ aoi : AreaOfInterest, aoiIncludes aoi e st = false) := by
  have hbe1 : (st.namespace_id == e.namespace_id) = false :=
    beq_eq_false_iff_ne.mpr (Ne.symm h)
  have hbe2 : (e.namespace_id == st.namespace_id) = false :=
    beq_eq_false_iff_ne.mpr h
  constructor
  · intro maxCount maxSize
    unfold storeNewestIncludesWithinTotalSize
    rw [hbe1]
    rfl
  · intro aoi
    unfold aoiIncludes
    rw [hbe2]
    rfl

/-- C9 witness: the theorem at a concrete foreign-namespace entry and
store. -/
theorem foreign_namespace_excluded_witness :
    (Entry.mk 1 0 [] 0 0 0).namespace_id ≠ (emptyStore 0).namespace_id ∧
      ((∀ maxCount maxSize : Option Nat,
          storeNewestIncludesWithinTotalSize (emptyStore 0) maxCount
            (Entry.mk 1 0 [] 0 0 0) maxSize = false) ∧
        (∀ aoi : AreaOfInterest, aoiIncludes aoi (Entry.mk 1 0 [] 0 0 0) (emptyStore 0) =
          false)) :=
  ⟨by decide, foreign_namespace_excluded (emptyStore 0) (Entry.mk 1 0 [] 0 0 0) (by decide)⟩

/-! Claim C2. -/

/-- C2 counterexample: the claim says an entry that is "not newer" than the
new entry is pruned, which includes entries whose newness tuple is equal to
the new entry's.  But the code prunes only entries the prefixing entry is
strictly newer than (`prefixing_entry > found_entry`).  Concretely: put
`old` at path `[[97], [98]]` and then `new` at the strict prefix `[[97]]`
with the identical `(timestamp, digest, length)` tuple `(100, 5, 7)`; `old`
is not newer than `new`, yet after the second put `old` is still observable
through `get` (and `iter`). -/
theorem prefix_prune_equal_newness_cex :
    (applyPuts (emptyStore 0)
        [Entry.mk 0 0 [[97], [98]] 100 5 7, Entry.mk 0 0 [[97]] 100 5 7]).map
        (fun st => observedGet 0 st.ext (Entry.mk 0 0 [[97], [98]] 100 5 7)) =
      Except.ok true ∧
    pathIsPrefixOf [[97]] [[97], [98]] = true ∧
    ¬([[97]] : PathT) = [[97], [98]] ∧
    Entry.is_newer_than (Entry.mk 0 0 [[97], [98]] 100 5 7) (Entry.mk 0 0 [[97]] 100 5 7) =
      false := by
  exact ⟨rfl, by decide, by decide, by decide⟩

/-- C2 amended: after a successful `put` of `new`, every entry `old` that
was observable before, with the same subspace, whose path is strictly
prefixed by `new`'s path, and that `new` is strictly newer than (rather
than the claim's "not newer than", which would also cover equal newness
tuples), is afterwards not observable through `get` or `iter`. -/
theorem prefix_pruning_after_put (st st' : Store) (enew eold : Entry)
    (hput : storePut st enew = Except.ok st')
    (hobs : observedGet st.namespace_id st.ext eold = true)
    (hsub : eold.subspace_id = enew.subspace_id)
    (hpfx : pathIsPrefixOf enew.path eold.path = true)
    (hne : ¬enew.path = eold.path)
    (hnewer : Entry.is_newer_than enew eold = true) :
    observedGet st'.namespace_id st'.ext eold = false ∧
      eold ∉ iterEntries st'.namespace_id st'.ext := by
  obtain ⟨hns, hext, -, -⟩ := storePut_ok hput
  unfold observedGet at hobs
  simp only [Bool.and_eq_true, beq_iff_eq] at hobs
  obtain ⟨hons, hoget⟩ := hobs
  have hist_old : historyAt st'.ext eold.subspace_id eold.path =
      historyAt st.ext eold.subspace_id eold.path := by
    rw [hext, historyAt_append]
    have : historyAt
        [{ subspace_id := enew.subspace_id, path := enew.path, stored := tripleOf enew }]
        eold.subspace_id eold.path = [] := by
      simp [historyAt, beq_eq_false_iff_ne.mpr hne]
    rw [this, List.append_nil]
  have hnewestAt_old : newestAt st'.ext eold.subspace_id eold.path =
      newestAt st.ext eold.subspace_id eold.path := by
    unfold newestAt
    rw [hist_old]
  have hget_old : newestAt st.ext eold.subspace_id eold.path = some (tripleOf eold) := by
    unfold inMemGet at hoget
    cases hna : newestAt st.ext eold.subspace_id eold.path with
    | none => rw [hna] at hoget; simp at hoget
    | some f =>
      rw [hna] at hoget
      by_cases hpr : isPrunedAt st.ext eold.subspace_id eold.path f = true
      · simp [hpr] at hoget
      · simp only [hpr, if_false] at hoget
        simp only [Bool.not_eq_true] at hpr
        simp only [hpr, Bool.false_eq_true, if_false, Option.some.injEq] at hoget
        rw [hoget]
  have hist_new : historyAt st'.ext eold.subspace_id enew.path =
      historyAt st.ext eold.subspace_id enew.path ++ [tripleOf enew] := by
    rw [hext, historyAt_append]
    have : historyAt
        [{ subspace_id := enew.subspace_id, path := enew.path, stored := tripleOf enew }]
        eold.subspace_id enew.path = [tripleOf enew] := by
      simp [historyAt, List.filter, hsub.symm]
    rw [this]
  have hpruned : isPrunedAt st'.ext eold.subspace_id eold.path (tripleOf eold) = true := by
    unfold isPrunedAt
    rw [List.any_eq_true]
    refine ⟨{ subspace_id := enew.subspace_id, path := enew.path, stored := tripleOf enew },
      ?_, ?_⟩
    · rw [hext]
      exact List.mem_append_right _ (List.mem_singleton.mpr rfl)
    · simp only [Bool.and_eq_true, beq_iff_eq]
      refine ⟨⟨⟨hsub.symm, hpfx⟩, by simp [hne]⟩, ?_⟩
      cases hpk : newestAt st'.ext eold.subspace_id enew.path with
      | none =>
        exfalso
        have := heapPeek_eq_none.mp (by unfold newestAt at hpk; exact hpk)
        rw [hist_new] at this
        exact absurd this (by simp)
      | some m =>
        have hmem : (tripleOf enew) ∈ historyAt st'.ext eold.subspace_id enew.path := by
          rw [hist_new]
          exact List.mem_append_right _ (List.mem_singleton.mpr rfl)
        have hbound := heapPeek_is_max (l := historyAt st'.ext eold.subspace_id enew.path)
          (by unfold newestAt at hpk; exact hpk) (tripleOf enew) hmem
        have htriple : (tripleOf enew).newerThan (tripleOf eold) = true := by
          rw [← is_newer_than_triple]
          exact hnewer
        exact newerThanS_ge_trans htriple hbound
  have hget' : inMemGet st'.ext eold.subspace_id eold.path = none := by
    unfold inMemGet
    rw [hnewestAt_old, hget_old]
    simp only [hpruned, if_true]
  constructor
  · unfold observedGet
    rw [hget']
    simp
  · intro hmem
    have := mem_iterEntries.mp hmem
    unfold observedGet at this
    rw [hget'] at this
    simp at this

/-- C2 amended witness: the theorem at the concrete two-put scenario of the
spec's example (`put(path [[97]], t=100)` after `put(path [[97],[98]],
t=50)` prunes the longer path). -/
theorem prefix_pruning_after_put_witness :
    storePut (Store.mk 0
        [StoreRecord.mk 0 [[97], [98]] (StoredEntry.mk 50 5 7)])
        (Entry.mk 0 0 [[97]] 100 5 7) =
      Except.ok (Store.mk 0
        [StoreRecord.mk 0 [[97], [98]] (StoredEntry.mk 50 5 7),
         StoreRecord.mk 0 [[97]] (StoredEntry.mk 100 5 7)]) ∧
    observedGet 0 [StoreRecord.mk 0 [[97], [98]] (StoredEntry.mk 50 5 7)]
        (Entry.mk 0 0 [[97], [98]] 50 5 7) = true ∧
    observedGet 0
        [StoreRecord.mk 0 [[97], [98]] (StoredEntry.mk 50 5 7),
         StoreRecord.mk 0 [[97]] (StoredEntry.mk 100 5 7)]
        (Entry.mk 0 0 [[97], [98]] 50 5 7) = false ∧
    (Entry.mk 0 0 [[97], [98]] 50 5 7) ∉ iterEntries 0
        [StoreRecord.mk 0 [[97], [98]] (StoredEntry.mk 50 5 7),
         StoreRecord.mk 0 [[97]] (StoredEntry.mk 100 5 7)] := by
  refine ⟨rfl, by decide, ?_, ?_⟩
  · exact (prefix_pruning_after_put
      (Store.mk 0 [StoreRecord.mk 0 [[97], [98]] (StoredEntry.mk 50 5 7)])
      (Store.mk 0
        [StoreRecord.mk 0 [[97], [98]] (StoredEntry.mk 50 5 7),
         StoreRecord.mk 0 [[97]] (StoredEntry.mk 100 5 7)])
      (Entry.mk 0 0 [[97]] 100 5 7) (Entry.mk 0 0 [[97], [98]] 50 5 7)
      rfl (by decide) (by decide) (by decide) (by decide) (by decide)).1
  · exact (prefix_pruning_after_put
      (Store.mk 0 [StoreRecord.mk 0 [[97], [98]] (StoredEntry.mk 50 5 7)])
      (Store.mk 0
        [StoreRecord.mk 0 [[97], [98]] (StoredEntry.mk 50 5 7),
         StoreRecord.mk 0 [[97]] (StoredEntry.mk 100 5 7)])
      (Entry.mk 0 0 [[97]] 100 5 7) (Entry.mk 0 0 [[97], [98]] 50 5 7)
      rfl (by decide) (by decide) (by decide) (by decide) (by decide)).2

/-! Claim C1. -/

theorem applyPuts_inv {ops : List Entry} :
    ∀ {st st' : Store}, applyPuts st ops = Except.ok st' →
      (∀ r ∈ st.ext, fromPathLimited TEST_LIMITS r.path = Except.ok r.path) →
      st'.namespace_id = st.namespace_id ∧
        ∀ r ∈ st'.ext, fromPathLimited TEST_LIMITS r.path = Except.ok r.path := by
  induction ops with
  | nil =>
    intro st st' h hv
    simp only [applyPuts, Except.ok.injEq] at h
    subst h
    exact ⟨rfl, hv⟩
  | cons e rest ih =>
    intro st st' h hv
    simp only [applyPuts] at h
    cases hp : storePut st e with
    | ok st1 =>
      rw [hp] at h
      obtain ⟨hns1, hext1, -, hfp⟩ := storePut_ok hp
      have hv1 : ∀ r ∈ st1.ext, fromPathLimited TEST_LIMITS r.path = Except.ok r.path := by
        intro r hr
        rw [hext1] at hr
        rcases List.mem_append.mp hr with hr | hr
        · exact hv r hr
        · rw [List.mem_singleton] at hr
          subst hr
          exact hfp
      obtain ⟨hns', hv'⟩ := ih h hv1
      exact ⟨hns'.trans hns1, hv'⟩
    | error err =>
      rw [hp] at h
      simp at h

theorem extJoinGo_ok {nsid : Nat} :
    ∀ recs : List StoreRecord,
      (∀ r ∈ recs, fromPathLimited TEST_LIMITS r.path = Except.ok r.path) →
      ∀ s : InMem, extJoinGo nsid s recs = Except.ok (s ++ recs) := by
  intro recs
  induction recs with
  | nil =>
    intro _ s
    simp [extJoinGo]
  | cons r rest ih =>
    intro hv s
    have hput : extPut s (recToEntry nsid r) = Except.ok (s ++ [r]) := by
      unfold extPut
      have hfp : fromPathLimited TEST_LIMITS (recToEntry nsid r).path = Except.ok r.path :=
        hv r (List.mem_cons_self r rest)
      rw [hfp]
      rfl
    simp only [extJoinGo]
    rw [hput]
    show extJoinGo nsid (s ++ [r]) rest = Except.ok (s ++ r :: rest)
    rw [ih (fun r' hr' => hv r' (List.mem_cons_of_mem r hr')) (s ++ [r]),
      List.append_assoc]
    rfl

theorem storeJoin_ok_of_valid {a b : Store} (hns : a.namespace_id = b.namespace_id)
    (hv : ∀ r ∈ b.ext, fromPathLimited TEST_LIMITS r.path = Except.ok r.path) :
    storeJoin a b = Except.ok (Store.mk a.namespace_id (a.ext ++ b.ext)) := by
  unfold storeJoin
  rw [beq_iff_eq.mpr hns]
  simp only [if_true]
  unfold extJoin
  rw [beq_iff_eq.mpr hns.symm]
  simp only [if_true]
  rw [extJoinGo_ok b.ext hv a.ext]

/-- C1: join is commutative on the retained (observable) sets: for stores
`A` and `B` of the same namespace, each built by an arbitrary sequence of
successful puts, `A.join(B)` and `B.join(A)` both succeed and the entries
observable through `get` (`observedGet`) and through `iter` (`iterEntries`
membership) coincide. -/
theorem store_join_commutes (nsid : Nat) (opsA opsB : List Entry) (stA stB : Store)
    (hA : applyPuts (emptyStore nsid) opsA = Except.ok stA)
    (hB : applyPuts (emptyStore nsid) opsB = Except.ok stB) :
    ∃ stAB stBA : Store,
      storeJoin stA stB = Except.ok stAB ∧
      storeJoin stB stA = Except.ok stBA ∧
      (∀ e : Entry, observedGet nsid stAB.ext e = observedGet nsid stBA.ext e) ∧
      (∀ e : Entry, e ∈ iterEntries nsid stAB.ext ↔ e ∈ iterEntries nsid stBA.ext) := by
  obtain ⟨hnsA, hvA⟩ := applyPuts_inv hA (by intro r hr; simp [emptyStore] at hr)
  obtain ⟨hnsB, hvB⟩ := applyPuts_inv hB (by intro r hr; simp [emptyStore] at hr)
  simp only [emptyStore] at hnsA hnsB
  refine ⟨Store.mk stA.namespace_id (stA.ext ++ stB.ext),
    Store.mk stB.namespace_id (stB.ext ++ stA.ext),
    storeJoin_ok_of_valid (hnsA.trans hnsB.symm) hvB,
    storeJoin_ok_of_valid (hnsB.trans hnsA.symm) hvA, ?_, ?_⟩
  · intro e
    exact observedGet_append_comm nsid stA.ext stB.ext e
  · intro e
    rw [mem_iterEntries, mem_iterEntries, observedGet_append_comm]

/-- C1 witness: the theorem at two concrete one-put stores of namespace
`5`. -/
theorem store_join_commutes_witness :
    applyPuts (emptyStore 5) [Entry.mk 5 0 [[97]] 10 1 2] =
        Except.ok (Store.mk 5 [StoreRecord.mk 0 [[97]] (StoredEntry.mk 10 1 2)]) ∧
    applyPuts (emptyStore 5) [Entry.mk 5 0 [[98]] 20 3 4] =
        Except.ok (Store.mk 5 [StoreRecord.mk 0 [[98]] (StoredEntry.mk 20 3 4)]) ∧
    ∃ stAB stBA : Store,
      storeJoin (Store.mk 5 [StoreRecord.mk 0 [[97]] (StoredEntry.mk 10 1 2)])
          (Store.mk 5 [StoreRecord.mk 0 [[98]] (StoredEntry.mk 20 3 4)]) =
        Except.ok stAB ∧
      storeJoin (Store.mk 5 [StoreRecord.mk 0 [[98]] (StoredEntry.mk 20 3 4)])
          (Store.mk 5 [StoreRecord.mk 0 [[97]] (StoredEntry.mk 10 1 2)]) =
        Except.ok stBA ∧
      (∀ e : Entry, observedGet 5 stAB.ext e = observedGet 5 stBA.ext e) ∧
      (∀ e : Entry, e ∈ iterEntries 5 stAB.ext ↔ e ∈ iterEntries 5 stBA.ext) :=
  ⟨rfl, rfl,
    store_join_commutes 5 [Entry.mk 5 0 [[97]] 10 1 2] [Entry.mk 5 0 [[98]] 20 3 4]
      (Store.mk 5 [StoreRecord.mk 0 [[97]] (StoredEntry.mk 10 1 2)])
      (Store.mk 5 [StoreRecord.mk 0 [[98]] (StoredEntry.mk 20 3 4)]) rfl rfl⟩

/-! Claim C6. -/

theorem is_newer_than_total_of_ne {e f : Entry} (h : tripleOf e ≠ tripleOf f) :
    Entry.is_newer_than e f = true ∨ Entry.is_newer_than f e = true := by
  rw [is_newer_than_iff, is_newer_than_iff]
  have hne : ¬(e.timestamp = f.timestamp ∧ e.payload_digest = f.payload_digest ∧
      e.payload_length = f.payload_length) := by
    rintro ⟨h1, h2, h3⟩
    exact h (by simp [tripleOf, h1, h2, h3])
  omega

/-- C6 counterexample: a store reachable by two puts retains two entries
with the identical newness tuple `(100, 5, 7)` at unrelated paths; neither
is "the single newest entry", yet `AreaOfInterest { max_count: Limit(1),
max_size: Unlimited }` over the full area `includes` one of them (the
backend breaks the tie), so the claimed equivalence fails at this input. -/
theorem aoi_limit_one_tie_cex :
    applyPuts (emptyStore 0) [Entry.mk 0 0 [[97]] 100 5 7, Entry.mk 0 0 [[98]] 100 5 7] =
        Except.ok (Store.mk 0
          [StoreRecord.mk 0 [[97]] (StoredEntry.mk 100 5 7),
           StoreRecord.mk 0 [[98]] (StoredEntry.mk 100 5 7)]) ∧
      ¬(aoiIncludes (AreaOfInterest.mk Area.fullA (Max.Limit 1) Max.Unlimited)
            (Entry.mk 0 0 [[97]] 100 5 7)
            (Store.mk 0
              [StoreRecord.mk 0 [[97]] (StoredEntry.mk 100 5 7),
               StoreRecord.mk 0 [[98]] (StoredEntry.mk 100 5 7)]) = true ↔
          ((Entry.mk 0 0 [[97]] 100 5 7) ∈ iterEntries 0
              [StoreRecord.mk 0 [[97]] (StoredEntry.mk 100 5 7),
               StoreRecord.mk 0 [[98]] (StoredEntry.mk 100 5 7)] ∧
            (∀ f ∈ iterEntries 0
                [StoreRecord.mk 0 [[97]] (StoredEntry.mk 100 5 7),
                 StoreRecord.mk 0 [[98]] (StoredEntry.mk 100 5 7)],
              f ≠ Entry.mk 0 0 [[97]] 100 5 7 →
                Entry.is_newer_than (Entry.mk 0 0 [[97]] 100 5 7) f = true) ∧
            Area.fullA.includesEntry (Entry.mk 0 0 [[97]] 100 5 7) = true)) :=
  ⟨rfl, by decide⟩

/-- C6 amended: for an entry of the store's namespace, and provided the
retained entries have pairwise distinct newness tuples (the code breaks
newness ties in a backend-defined way, so "the single newest" is only
well-defined without ties), `AreaOfInterest { max_count: Limit(1),
max_size: Unlimited }.includes(e, store)` is true iff `e` is retained,
strictly newer than every other retained entry of the store, and inside
the area. -/
theorem aoi_limit_one_newest (st : Store) (e : Entry) (area : Area)
    (hns : e.namespace_id = st.namespace_id)
    (hdist : ∀ f ∈ iterEntries st.namespace_id st.ext,
      ∀ g ∈ iterEntries st.namespace_id st.ext, f ≠ g → tripleOf f ≠ tripleOf g) :
    aoiIncludes (AreaOfInterest.mk area (Max.Limit 1) Max.Unlimited) e st = true ↔
      (e ∈ iterEntries st.namespace_id st.ext ∧
        (∀ f ∈ iterEntries st.namespace_id st.ext, f ≠ e →
          Entry.is_newer_than e f = true) ∧
        area.includesEntry e = true) := by
  unfold aoiIncludes newest_entries_include
  rw [beq_iff_eq.mpr hns]
  simp only [Bool.true_and, Bool.and_true, Bool.and_eq_true]
  have hperm : List.Perm (sortNewest (iterEntries st.namespace_id st.ext))
      (iterEntries st.namespace_id st.ext) := List.perm_insertionSort newestLe _
  have hsorted : List.Sorted newestLe (sortNewest (iterEntries st.namespace_id st.ext)) :=
    List.sorted_insertionSort newestLe _
  cases hL : sortNewest (iterEntries st.namespace_id st.ext) with
  | nil =>
    rw [hL] at hperm
    have hnil : iterEntries st.namespace_id st.ext = [] :=
      (List.Perm.nil_eq hperm).symm
    simp [hnil]
  | cons m rest =>
    rw [hL] at hperm hsorted
    rw [List.sorted_cons] at hsorted
    obtain ⟨hm_le, -⟩ := hsorted
    have hmmem : m ∈ iterEntries st.namespace_id st.ext :=
      hperm.mem_iff.mp (List.mem_cons_self m rest)
    simp only [List.take, List.any_cons, List.any_nil, Bool.or_false, beq_iff_eq]
    constructor
    · rintro ⟨harea, heqm⟩
      subst heqm
      refine ⟨hmmem, ?_, harea⟩
      intro f hf hfe
      have hfs : f ∈ e :: rest := hperm.mem_iff.mpr hf
      rcases List.mem_cons.mp hfs with rfl | hfr
      · exact absurd rfl hfe
      · have hfm : Entry.is_newer_than f e = false := hm_le f hfr
        have hpair := hdist e hmmem f hf (Ne.symm hfe)
        rcases is_newer_than_total_of_ne hpair with h | h
        · exact h
        · rw [h] at hfm
          exact absurd hfm (by decide)
    · rintro ⟨hmem, hnewest, harea⟩
      have hme : m = e := by
        by_contra hne
        have hnm := hnewest m hmmem hne
        have hes : e ∈ m :: rest := hperm.mem_iff.mpr hmem
        rcases List.mem_cons.mp hes with rfl | her
        · exact hne rfl
        · have : Entry.is_newer_than e m = false := hm_le e her
          rw [hnm] at this
          exact absurd this (by decide)
      exact ⟨harea, hme.symm⟩

/-- C6 amended witness: the theorem at a concrete two-entry store with
distinct newness tuples; the entry at timestamp `200` is the single newest
and is included. -/
theorem aoi_limit_one_newest_witness :
    (Entry.mk 0 0 [[97]] 200 0 0).namespace_id =
        (Store.mk 0
          [StoreRecord.mk 0 [[97]] (StoredEntry.mk 200 0 0),
           StoreRecord.mk 0 [[98]] (StoredEntry.mk 100 0 0)]).namespace_id ∧
      (aoiIncludes (AreaOfInterest.mk Area.fullA (Max.Limit 1) Max.Unlimited)
            (Entry.mk 0 0 [[97]] 200 0 0)
            (Store.mk 0
              [StoreRecord.mk 0 [[97]] (StoredEntry.mk 200 0 0),
               StoreRecord.mk 0 [[98]] (StoredEntry.mk 100 0 0)]) = true ↔
        ((Entry.mk 0 0 [[97]] 200 0 0) ∈ iterEntries 0
            [StoreRecord.mk 0 [[97]] (StoredEntry.mk 200 0 0),
             StoreRecord.mk 0 [[98]] (StoredEntry.mk 100 0 0)] ∧
          (∀ f ∈ iterEntries 0
              [StoreRecord.mk 0 [[97]] (StoredEntry.mk 200 0 0),
               StoreRecord.mk 0 [[98]] (StoredEntry.mk 100 0 0)],
            f ≠ Entry.mk 0 0 [[97]] 200 0 0 →
              Entry.is_newer_than (Entry.mk 0 0 [[97]] 200 0 0) f = true) ∧
          Area.fullA.includesEntry (Entry.mk 0 0 [[97]] 200 0 0) = true)) :=
  ⟨rfl,
    aoi_limit_one_newest
      (Store.mk 0
        [StoreRecord.mk 0 [[97]] (StoredEntry.mk 200 0 0),
         StoreRecord.mk 0 [[98]] (StoredEntry.mk 100 0 0)])
      (Entry.mk 0 0 [[97]] 200 0 0) Area.fullA rfl (by decide)⟩

/-! Claim C10. -/

theorem sizeFold_mem {e : Entry} :
    ∀ {l : List Entry} {acc t : Nat}, sizeFold l e acc = some t → e ∈ l := by
  intro l
  induction l with
  | nil =>
    intro acc t h
    simp [sizeFold] at h
  | cons f rest ih =>
    intro acc t h
    simp only [sizeFold] at h
    by_cases hef : (e == f) = true
    · exact List.mem_cons.mpr (Or.inl (beq_iff_eq.mp hef))
    · rw [Bool.eq_false_iff.mpr hef] at h
      simp only [Bool.false_eq_true, if_false] at h
      cases hadd : checkedAddU64 acc f.payload_length with
      | none => rw [hadd] at h; simp at h
      | some acc' =>
        rw [hadd] at h
        exact List.mem_cons_of_mem f (ih h)

theorem checkedAddU64_ok {a b t : Nat} (h : checkedAddU64 a b = some t) :
    t = a + b ∧ t ≤ U64_MAX := by
  unfold checkedAddU64 at h
  by_cases hle : a + b ≤ U64_MAX
  · rw [if_pos hle] at h
    simp only [Option.some.injEq] at h
    exact ⟨h.symm, h ▸ hle⟩
  · rw [if_neg hle] at h
    simp at h

theorem sizeFold_sum {e : Entry} :
    ∀ {l : List Entry}, List.Sorted newestLe l →
      ∀ {acc t : Nat}, sizeFold l e acc = some t →
        acc + ((l.filter (fun f => Entry.is_newer_than f e)).map
          Entry.payload_length).sum ≤ t := by
  intro l
  induction l with
  | nil =>
    intro _ acc t h
    simp [sizeFold] at h
  | cons f rest ih =>
    intro hs acc t h
    rw [List.sorted_cons] at hs
    obtain ⟨hf_le, hrest⟩ := hs
    simp only [sizeFold] at h
    by_cases hef : (e == f) = true
    · rw [hef] at h
      simp only [if_true, Option.some.injEq] at h
      subst h
      have heq : e = f := beq_iff_eq.mp hef
      have hnil : (f :: rest).filter (fun g => Entry.is_newer_than g e) = [] := by
        rw [List.filter_eq_nil_iff]
        intro g hg
        rcases List.mem_cons.mp hg with rfl | hgr
        · subst heq
          simp only [is_newer_than_triple]
          simp [newerThanS_irrefl]
        · have := hf_le g hgr
          simp only [newestLe] at this
          subst heq
          simp [this]
      rw [hnil]
      simp
    · rw [Bool.eq_false_iff.mpr hef] at h
      simp only [Bool.false_eq_true, if_false] at h
      cases hadd : checkedAddU64 acc f.payload_length with
      | none => rw [hadd] at h; simp at h
      | some acc' =>
        rw [hadd] at h
        obtain ⟨hacc', -⟩ := checkedAddU64_ok hadd
        have hih := ih hrest h
        by_cases hnf : Entry.is_newer_than f e = true
        · rw [List.filter_cons_of_pos (by simpa using hnf)]
          simp only [List.map_cons, List.sum_cons]
          omega
        · rw [List.filter_cons_of_neg (by simpa using hnf)]
          omega

theorem sorted_take_filter_newer {l : List Entry} (hs : List.Sorted newestLe l)
    {k : Nat} {e : Entry} (he : e ∈ l.take k) :
    (((l.take k).filter (fun f => Entry.is_newer_than f e)).map Entry.payload_length).sum =
      ((l.filter (fun f => Entry.is_newer_than f e)).map Entry.payload_length).sum := by
  have hsplit := List.take_append_drop k l
  have hpw : ∀ a ∈ l.take k, ∀ b ∈ l.drop k, newestLe a b := by
    have hs2 := hs
    rw [← hsplit] at hs2
    exact (List.pairwise_append.mp hs2).2.2
  have hdropnil : (l.drop k).filter (fun f => Entry.is_newer_than f e) = [] := by
    rw [List.filter_eq_nil_iff]
    intro g hg
    have := hpw e he g hg
    simp only [newestLe] at this
    simp [this]
  conv_rhs => rw [← hsplit]
  rw [List.filter_append, hdropnil, List.append_nil]

/-- C10: the size-budget check of the newest/top-k query sums `u64` payload
lengths with overflow detection: whenever the true (unbounded) sum of the
candidate's `payload_length` and the `payload_length`s of all retained
entries newer than it exceeds `u64::MAX`, the query returns `false` for
every `max_count` budget and every `u64` `max_size` budget, and so does
`AreaOfInterest::includes` with a limited `max_size` — the sum never wraps
around modulo `2^64` to a value that could satisfy the budget. -/
theorem newest_query_overflow_false (st : Store) (e : Entry) (m : Nat)
    (hm : m ≤ U64_MAX)
    (hsum : U64_MAX <
      e.payload_length +
        (((iterEntries st.namespace_id st.ext).filter
            (fun f => Entry.is_newer_than f e)).map Entry.payload_length).sum) :
    (∀ maxCount : Option Nat,
        storeNewestIncludesWithinTotalSize st maxCount e (some m) = false) ∧
      (∀ (area : Area) (mc : Max),
        aoiIncludes (AreaOfInterest.mk area mc (Max.Limit m)) e st = false) := by
  have hperm : List.Perm (sortNewest (iterEntries st.namespace_id st.ext))
      (iterEntries st.namespace_id st.ext) := List.perm_insertionSort newestLe _
  have hsorted : List.Sorted newestLe (sortNewest (iterEntries st.namespace_id st.ext)) :=
    List.sorted_insertionSort newestLe _
  have hsum_sorted : U64_MAX <
      e.payload_length +
        (((sortNewest (iterEntries st.namespace_id st.ext)).filter
            (fun f => Entry.is_newer_than f e)).map Entry.payload_length).sum := by
    have := ((hperm.filter (fun f => Entry.is_newer_than f e)).map
      Entry.payload_length).sum_eq
    omega
  have hmain : ∀ newest : List Entry, List.Sorted newestLe newest →
      (∀ g, g ∈ newest → e ∈ newest →
        (((newest.filter (fun f => Entry.is_newer_than f e)).map
          Entry.payload_length).sum =
          (((sortNewest (iterEntries st.namespace_id st.ext)).filter
            (fun f => Entry.is_newer_than f e)).map Entry.payload_length).sum)) →
      (match sizeFold newest e e.payload_length with
       | some total => decide (total ≤ m)
       | none => false) = false := by
    intro newest hsortn hfilter
    cases hsf : sizeFold newest e e.payload_length with
    | none => rfl
    | some total =>
      have hmem : e ∈ newest := sizeFold_mem hsf
      have hb := sizeFold_sum hsortn hsf
      have hfe := hfilter e hmem hmem
      simp only [decide_eq_false_iff_not, not_le]
      omega
  constructor
  · intro maxCount
    unfold storeNewestIncludesWithinTotalSize
    cases hbe : st.namespace_id == e.namespace_id
    · rfl
    · simp only [Bool.true_and]
      unfold inMemNewestIncludesWithinTotalSize
      cases maxCount with
      | none =>
        exact hmain (sortNewest (iterEntries st.namespace_id st.ext)) hsorted
          (fun g _ _ => rfl)
      | some k =>
        refine hmain ((sortNewest (iterEntries st.namespace_id st.ext)).take k)
          (List.Pairwise.sublist (List.take_sublist k _) hsorted) ?_
        intro g _ he
        exact sorted_take_filter_newer hsorted he
  · intro area mc
    unfold aoiIncludes payloads_total_size_of_entry_to_newest
    have hsize := hmain (sortNewest (iterEntries st.namespace_id st.ext)) hsorted
      (fun g _ _ => rfl)
    cases hsf : sizeFold (sortNewest (iterEntries st.namespace_id st.ext)) e
        e.payload_length with
    | none => simp
    | some total =>
      rw [hsf] at hsize
      simp only [decide_eq_false_iff_not] at hsize
      simp [hsize]

/-- C10 witness: a concrete store where the candidate's payload length is
`u64::MAX` and one strictly newer retained entry adds `5`, so the true sum
exceeds `u64::MAX`; the query and `includes` return `false` for the budget
`10`. -/
theorem newest_query_overflow_false_witness :
    10 ≤ U64_MAX ∧
      (U64_MAX <
        (Entry.mk 0 0 [[97]] 100 0 (2 ^ 64 - 1)).payload_length +
          (((iterEntries 0
              [StoreRecord.mk 0 [[97]] (StoredEntry.mk 100 0 (2 ^ 64 - 1)),
               StoreRecord.mk 0 [[98]] (StoredEntry.mk 200 0 5)]).filter
              (fun f => Entry.is_newer_than f (Entry.mk 0 0 [[97]] 100 0 (2 ^ 64 - 1)))).map
            Entry.payload_length).sum) ∧
      ((∀ maxCount : Option Nat,
          storeNewestIncludesWithinTotalSize
            (Store.mk 0
              [StoreRecord.mk 0 [[97]] (StoredEntry.mk 100 0 (2 ^ 64 - 1)),
               StoreRecord.mk 0 [[98]] (StoredEntry.mk 200 0 5)]) maxCount
            (Entry.mk 0 0 [[97]] 100 0 (2 ^ 64 - 1)) (some 10) = false) ∧
        (∀ (area : Area) (mc : Max),
          aoiIncludes (AreaOfInterest.mk area mc (Max.Limit 10))
            (Entry.mk 0 0 [[97]] 100 0 (2 ^ 64 - 1))
            (Store.mk 0
              [StoreRecord.mk 0 [[97]] (StoredEntry.mk 100 0 (2 ^ 64 - 1)),
               StoreRecord.mk 0 [[98]] (StoredEntry.mk 200 0 5)]) = false)) :=
  ⟨by decide, by decide,
    newest_query_overflow_false
      (Store.mk 0
        [StoreRecord.mk 0 [[97]] (StoredEntry.mk 100 0 (2 ^ 64 - 1)),
         StoreRecord.mk 0 [[98]] (StoredEntry.mk 200 0 5)])
      (Entry.mk 0 0 [[97]] 100 0 (2 ^ 64 - 1)) 10 (by decide) (by decide)⟩

end Sailce
